import Mathlib

/-!
Shallow embedding of the DumpDateRS waste-collection notification bot.

The embedding follows the Rust sources:
  * `src/waste.rs`  — waste-type vocabulary, label canonicalization, iCal parsing;
  * `src/store.rs`  — the SQLite-backed store operations, modelled as pure
    functions over an explicit relational state `DBState`;
  * `src/db.rs`     — the schema (uniqueness constraints, foreign keys with
    `ON DELETE CASCADE`), reflected in the well-formedness predicate `WF`
    and in the cascade behaviour of the delete operations.

Dates stored in the `pickup_events` table are ISO `YYYY-MM-DD` strings and are
compared as strings in the SQL (`date >= ?`), so the embedding keeps them as
`String` and uses the lexicographic order on `String`.
-/

namespace DumpDate

/-! ### String primitives

Rust's `str::trim`, `str::split(c)` and the byte-lexicographic `Ord` on
strings, embedded as structural recursions over the character list of a
`String` so that every concrete instance evaluates by `decide`. -/

/-- Whitespace test used by `strTrim` (the source inputs are ASCII, so the
ASCII whitespace characters suffice). -/
def isWs (c : Char) : Bool :=
  c = ' ' || c = '\t' || c = '\n' || c = '\r'

/-- Rust `str::trim`: remove leading and trailing whitespace. -/
def strTrim (s : String) : String :=
  ⟨((s.data.dropWhile isWs).reverse.dropWhile isWs).reverse⟩

/-- Splitting a character list at every occurrence of `sep`
(Rust `str::split(sep)`); always returns at least one fragment. -/
def splitCharList (sep : Char) : List Char → List (List Char)
  | [] => [[]]
  | c :: rest =>
    if c = sep then [] :: splitCharList sep rest
    else
      match splitCharList sep rest with
      | [] => [[c]]
      | h :: t => (c :: h) :: t

/-- Rust `str::split(sep)` on a `String`. -/
def splitChar (sep : Char) (s : String) : List String :=
  (splitCharList sep s.data).map fun cs => ⟨cs⟩

/-- Lexicographic order on character lists (Rust's `Ord` on `str` is
byte-lexicographic, which agrees with codepoint-lexicographic order on the
strings involved here). -/
def charListLt : List Char → List Char → Bool
  | _, [] => false
  | [], _ :: _ => true
  | a :: as, b :: bs => a < b || (a = b && charListLt as bs)

/-- Rust `a < b` on strings. -/
def strLtB (a b : String) : Bool := charListLt a.data b.data

/-- Rust `a >= b` on strings (total order: `a >= b ↔ ¬ a < b`). -/
def strGeB (a b : String) : Bool := !(strLtB a b)

/-- `WasteType` from `src/waste.rs`: closed vocabulary plus an open
`Other` variant carrying the original label. -/
inductive WasteType : Type where
  | Bio : WasteType
  | Rest : WasteType
  | Paper : WasteType
  | Yellow : WasteType
  | ChristmasTree : WasteType
  | Other : String → WasteType
deriving DecidableEq, Repr

/-- `WasteType::as_str` from `src/waste.rs`. -/
def WasteType.asStr : WasteType → String
  | .Bio => "Bio"
  | .Rest => "Rest"
  | .Paper => "Papier"
  | .Yellow => "Gelb"
  | .ChristmasTree => "Weihnachtsbaum"
  | .Other s => s

/-- `impl FromStr for WasteType` from `src/waste.rs`: trim, then match the
synonym table, falling back to `Other(trimmed)`.  Infallible. -/
def WasteType.fromStr (s : String) : WasteType :=
  let normalized := strTrim s
  match normalized with
  | "Bio" | "Biotonne" => .Bio
  | "Rest" | "Restmüll" | "Restabfall" => .Rest
  | "Papier" | "Pappe" | "Blaue Tonne" => .Paper
  | "Gelb" | "Gelbe Tonne" | "Gelber Sack" => .Yellow
  | "Weihnachtsbaum" | "Weihnachtsbäume" => .ChristmasTree
  | _ => .Other normalized

/-- The synonym table of `impl FromStr for WasteType`, as an association
list, used to state the fallback behaviour of `WasteType.fromStr`. -/
def synonymTable : List (String × WasteType) :=
  [("Bio", .Bio), ("Biotonne", .Bio),
   ("Rest", .Rest), ("Restmüll", .Rest), ("Restabfall", .Rest),
   ("Papier", .Paper), ("Pappe", .Paper), ("Blaue Tonne", .Paper),
   ("Gelb", .Yellow), ("Gelbe Tonne", .Yellow), ("Gelber Sack", .Yellow),
   ("Weihnachtsbaum", .ChristmasTree), ("Weihnachtsbäume", .ChristmasTree)]

/-- `normalize_waste_types` from `src/waste.rs`: split on commas, trim each
fragment, drop empty fragments, parse each remaining fragment. -/
def normalize_waste_types (summary : String) : List WasteType :=
  (((splitChar ',' summary).map strTrim).filter (fun s => s ≠ "")).map WasteType.fromStr

/-- Calendar date (`chrono::NaiveDate` in the source). -/
structure Date where
  year : Nat
  month : Nat
  day : Nat
deriving DecidableEq, Repr

def isLeapYear (y : Nat) : Bool :=
  (y % 4 == 0 && y % 100 != 0) || y % 400 == 0

def daysInMonth (y m : Nat) : Nat :=
  if m = 2 then (if isLeapYear y then 29 else 28)
  else if m = 4 ∨ m = 6 ∨ m = 9 ∨ m = 11 then 30
  else 31

def validYMD (y m d : Nat) : Bool :=
  decide (1 ≤ m ∧ m ≤ 12 ∧ 1 ≤ d ∧ d ≤ daysInMonth y m)

def digitsToNat (cs : List Char) : Nat :=
  cs.foldl (fun acc c => acc * 10 + (c.toNat - 48)) 0

/-- Modelled from the spec: the "fixed compact numeric calendar-date format"
(`NaiveDate::parse_from_str(_, "%Y%m%d")` in the source; `chrono` is an
external crate, not part of this repository).  Exactly eight ASCII digits,
`YYYYMMDD`, denoting a valid calendar date. -/
def parseCompactDate (s : String) : Option Date :=
  let cs := s.toList
  if cs.length = 8 ∧ cs.all Char.isDigit then
    let y := digitsToNat (cs.take 4)
    let m := digitsToNat ((cs.drop 4).take 2)
    let d := digitsToNat (cs.drop 6)
    if validYMD y m d then some ⟨y, m, d⟩ else none
  else none

/-- `val.split('T').next().unwrap_or(&val)` from `extract_event_data`:
the part of a `DTSTART` value before the first `T`. -/
def dtClean (v : String) : String :=
  match splitChar 'T' v with
  | [] => v
  | h :: _ => h

/-- A property of an iCal event (`ical::property::Property`): a name and an
optional value.  The iCal lexer is an external crate; the repository's own
code starts from these structured events. -/
structure IcalProperty where
  name : String
  value : Option String
deriving DecidableEq, Repr

/-- `ical::parser::ical::component::IcalEvent`, restricted to what the
repository reads: the property list. -/
structure IcalEvent where
  properties : List IcalProperty
deriving DecidableEq, Repr

/-- An iCal calendar: its list of events. -/
structure IcalCalendar where
  events : List IcalEvent
deriving DecidableEq, Repr

/-- `ParseError` from `src/waste.rs` (the `IcalError` variant wraps the
external lexer's errors and is not modelled). -/
inductive ParseError : Type where
  | MissingDate : ParseError
  | InvalidDate : String → ParseError
  | MissingSummary : ParseError
deriving DecidableEq, Repr

/-- `PickupEvent` from `src/waste.rs`: one calendar entry's date together
with ALL waste types listed in its summary. -/
structure PickupEvent where
  date : Date
  waste_types : List WasteType
deriving DecidableEq, Repr

/-- The property loop of `extract_event_data`: scans the properties in
order, recording the latest parsed `DTSTART` date and the latest `SUMMARY`
value (a `SUMMARY` with no value overwrites with `none`), and aborting with
`InvalidDate` as soon as a `DTSTART` value fails to parse. -/
def extractLoop : List IcalProperty → Option Date → Option String →
    Except ParseError (Option Date × Option String)
  | [], d, s => .ok (d, s)
  | p :: rest, d, s =>
    if p.name = "DTSTART" then
      match p.value with
      | some v =>
        match parseCompactDate (dtClean v) with
        | some dd => extractLoop rest (some dd) s
        | none => .error (.InvalidDate v)
      | none => extractLoop rest d s
    else if p.name = "SUMMARY" then
      extractLoop rest d p.value
    else
      extractLoop rest d s

/-- `extract_event_data` from `src/waste.rs`: run the property loop, then
require a date (else `MissingDate`) and a summary (else `MissingSummary`),
in that order. -/
def extract_event_data (e : IcalEvent) : Except ParseError (Date × String) :=
  match extractLoop e.properties none none with
  | .error err => .error err
  | .ok (none, _) => .error .MissingDate
  | .ok (some _, none) => .error .MissingSummary
  | .ok (some d, some s) => .ok (d, s)

/-- The event loop of `parse_ical`: one `PickupEvent` per iCal entry,
failing on the first entry whose extraction fails. -/
def parseEvents : List IcalEvent → Except ParseError (List PickupEvent)
  | [] => .ok []
  | e :: rest =>
    match extract_event_data e with
    | .error err => .error err
    | .ok (d, s) =>
      match parseEvents rest with
      | .error err => .error err
      | .ok evs => .ok (⟨d, normalize_waste_types s⟩ :: evs)

/-- `parse_ical` from `src/waste.rs`, over the already-lexed calendars (the
raw-text lexer is the external `ical` crate): collects one `PickupEvent`
per entry of each calendar, in order. -/
def parse_ical (cals : List IcalCalendar) : Except ParseError (List PickupEvent) :=
  parseEvents (cals.flatMap IcalCalendar.events)

/-! ### The store (`src/store.rs` over the schema of `src/db.rs`)

The SQLite state is modelled as an explicit relational state `DBState`;
each store function becomes a pure function on it.  Fallible operations
(those that can hit a constraint violation) return `Option DBState`. -/

/-- Decimal digit character of `n % 10`. -/
def digitChar (n : Nat) : Char := Char.ofNat (48 + n % 10)

/-- `chrono`'s `%Y-%m-%d` rendering of a date (four-digit year, two-digit
month and day, zero padded), as used by `upsert_events` and the
dispatcher. -/
def formatDate (d : Date) : String :=
  ⟨[digitChar (d.year / 1000), digitChar (d.year / 100),
    digitChar (d.year / 10), digitChar d.year, '-',
    digitChar (d.month / 10), digitChar d.month, '-',
    digitChar (d.day / 10), digitChar d.day]⟩

/-- A row of `user_locations` (`src/db.rs`): binding of a subscriber to a
location code, with notification preferences. -/
structure Binding where
  id : Int
  user_id : Int
  location_id : String
  notify_time : String
  notify_offset : Int
  alias_col : Option String
deriving DecidableEq, Repr

/-- A row of `subscriptions` (`src/db.rs`). -/
structure SubRow where
  user_location_id : Int
  waste_type : String
deriving DecidableEq, Repr

/-- A row of `pickup_events` (`src/db.rs`), keyed by the unique triple
`(location_id, date, waste_type)`; the surrogate `id` column plays no role
in any query and is omitted. -/
structure EventRow where
  location_id : String
  date : String
  waste_type : String
deriving DecidableEq, Repr

/-- The relational state: the four tables plus the `AUTOINCREMENT` counter
of `user_locations`. -/
structure DBState where
  users : List Int
  user_locations : List Binding
  subscriptions : List SubRow
  pickup_events : List EventRow
  next_binding_id : Int
deriving DecidableEq, Repr

/-- The empty database produced by `create_schema`. -/
def initState : DBState := ⟨[], [], [], [], 1⟩

/-- `create_user`: `INSERT ... ON CONFLICT(id) DO NOTHING`. -/
def create_user (s : DBState) (chat_id : Int) : DBState :=
  if chat_id ∈ s.users then s else { s with users := s.users ++ [chat_id] }

/-- Cascade test: does `sub` reference a binding of `chat_id`?  Used by the
`ON DELETE CASCADE` semantics of the `subscriptions` foreign key. -/
def subOfUser (bindings : List Binding) (chat_id : Int) (sub : SubRow) : Prop :=
  ∃ b ∈ bindings, b.id = sub.user_location_id ∧ b.user_id = chat_id

instance (bindings : List Binding) (chat_id : Int) (sub : SubRow) :
    Decidable (subOfUser bindings chat_id sub) := by
  unfold subOfUser; infer_instance

/-- `delete_user`: `DELETE FROM users WHERE id = ?`, with the schema's
`ON DELETE CASCADE` removing the user's bindings and, transitively, the
subscriptions attached to those bindings. -/
def delete_user (s : DBState) (chat_id : Int) : DBState :=
  { s with
    users := s.users.filter fun u => u ≠ chat_id
    user_locations := s.user_locations.filter fun b => b.user_id ≠ chat_id
    subscriptions := s.subscriptions.filter fun sub => ¬ subOfUser s.user_locations chat_id sub }

/-- Key test of the `UNIQUE(user_id, location_id)` constraint. -/
def bindingKey (chat_id : Int) (location_id : String) (b : Binding) : Prop :=
  b.user_id = chat_id ∧ b.location_id = location_id

instance (chat_id : Int) (location_id : String) (b : Binding) :
    Decidable (bindingKey chat_id location_id b) := by
  unfold bindingKey; infer_instance

/-- `add_user_location`: ensure the user exists, then
`INSERT ... ON CONFLICT(user_id, location_id) DO UPDATE SET alias = excluded.alias RETURNING id`.  Schema defaults for a fresh row: `notify_time = '18:00'`,
`notify_offset = 1`.  Returns the row id and the new state. -/
def add_user_location (s : DBState) (chat_id : Int) (location_id : String)
    (alias_col : Option String) : Int × DBState :=
  let s := create_user s chat_id
  match s.user_locations.find? fun b => decide (bindingKey chat_id location_id b) with
  | some b =>
    (b.id,
     { s with
       user_locations := s.user_locations.map fun b' =>
         if bindingKey chat_id location_id b' then { b' with alias_col := alias_col } else b' })
  | none =>
    (s.next_binding_id,
     { s with
       user_locations := s.user_locations ++
         [⟨s.next_binding_id, chat_id, location_id, "18:00", 1, alias_col⟩]
       next_binding_id := s.next_binding_id + 1 })

/-- The row list returned by `get_user_locations`. -/
def get_user_locations (s : DBState) (chat_id : Int) : List Binding :=
  s.user_locations.filter fun b => b.user_id = chat_id

/-- The `WHERE user_id = ? AND (alias = ? OR location_id = ?)` selector
shared by `delete_user_location`, `update_notify_time` and
`update_notify_offset`.  An SQL comparison with a `NULL` alias is not true,
hence `b.alias_col = some key`. -/
def keyMatches (chat_id : Int) (key : String) (b : Binding) : Prop :=
  b.user_id = chat_id ∧ (b.alias_col = some key ∨ b.location_id = key)

instance (chat_id : Int) (key : String) (b : Binding) :
    Decidable (keyMatches chat_id key b) := by
  unfold keyMatches; infer_instance

/-- Cascade test used when bindings matching `key` are deleted. -/
def subOfMatching (bindings : List Binding) (chat_id : Int) (key : String)
    (sub : SubRow) : Prop :=
  ∃ b ∈ bindings, keyMatches chat_id key b ∧ b.id = sub.user_location_id

instance (bindings : List Binding) (chat_id : Int) (key : String) (sub : SubRow) :
    Decidable (subOfMatching bindings chat_id key sub) := by
  unfold subOfMatching; infer_instance

/-- `delete_user_location`: delete every binding of the user whose alias or
location code equals `key` (cascading to their subscriptions); returns
`rows_affected() > 0` and the new state. -/
def delete_user_location (s : DBState) (chat_id : Int) (key : String) :
    Bool × DBState :=
  (decide (∃ b ∈ s.user_locations, keyMatches chat_id key b),
   { s with
     user_locations := s.user_locations.filter fun b => ¬ keyMatches chat_id key b
     subscriptions := s.subscriptions.filter fun sub =>
       ¬ subOfMatching s.user_locations chat_id key sub })

/-- `update_notify_time`: set `notify_time` on every binding of the user
whose alias or location code equals `key`; returns `rows_affected() > 0`. -/
def update_notify_time (s : DBState) (chat_id : Int) (key : String)
    (time : String) : Bool × DBState :=
  (decide (∃ b ∈ s.user_locations, keyMatches chat_id key b),
   { s with
     user_locations := s.user_locations.map fun b =>
       if keyMatches chat_id key b then { b with notify_time := time } else b })

/-- `update_notify_offset`: set `notify_offset` on every binding of the
user whose alias or location code equals `key`; returns
`rows_affected() > 0`. -/
def update_notify_offset (s : DBState) (chat_id : Int) (key : String)
    (offset : Int) : Bool × DBState :=
  (decide (∃ b ∈ s.user_locations, keyMatches chat_id key b),
   { s with
     user_locations := s.user_locations.map fun b =>
       if keyMatches chat_id key b then { b with notify_offset := offset } else b })

/-- `add_subscription`: `INSERT ... ON CONFLICT DO NOTHING`; fails (foreign
key) when the referenced binding does not exist. -/
def add_subscription (s : DBState) (user_location_id : Int) (waste_type : String) :
    Option DBState :=
  if ∃ b ∈ s.user_locations, b.id = user_location_id then
    some { s with
      subscriptions :=
        if (⟨user_location_id, waste_type⟩ : SubRow) ∈ s.subscriptions then
          s.subscriptions
        else s.subscriptions ++ [⟨user_location_id, waste_type⟩] }
  else none

/-- `remove_subscription`. -/
def remove_subscription (s : DBState) (user_location_id : Int) (waste_type : String) :
    DBState :=
  { s with
    subscriptions := s.subscriptions.filter fun sub =>
      ¬ (sub.user_location_id = user_location_id ∧ sub.waste_type = waste_type) }

/-- The row list returned by `get_subscriptions`. -/
def get_subscriptions (s : DBState) (user_location_id : Int) : List String :=
  (s.subscriptions.filter fun sub => sub.user_location_id = user_location_id).map
    SubRow.waste_type

/-! ### `upsert_events` -/

/-- The predicate of the sync's `DELETE FROM pickup_events WHERE
location_id = ? AND date >= ?`. -/
def futureOf (location_id today : String) (r : EventRow) : Prop :=
  r.location_id = location_id ∧ strGeB r.date today = true

instance (location_id today : String) (r : EventRow) :
    Decidable (futureOf location_id today r) := by
  unfold futureOf; infer_instance

/-- The rows that `upsert_events` inserts: for each supplied event whose
formatted date is not below `today`, one row per listed waste type, in
iteration order (events dated before `today` are skipped). -/
def upsertRows (location_id today : String) (events : List PickupEvent) :
    List EventRow :=
  events.flatMap fun e =>
    let date_str := formatDate e.date
    if strLtB date_str today then []
    else e.waste_types.map fun w => ⟨location_id, date_str, w.asStr⟩

/-- `upsert_events` from `src/store.rs`: inside one transaction, delete the
location's rows dated on-or-after `today`, then insert the future-dated
supplied rows (batched in the source, which does not affect the committed
contents).  The insert has no `ON CONFLICT` clause, so it fails — and the
transaction rolls back — when an inserted row collides with a remaining row
or with another inserted row on the `UNIQUE(location_id, date, waste_type)`
key.  `today` is the local date at call time, passed explicitly here. -/
def upsert_events (s : DBState) (location_id : String) (events : List PickupEvent)
    (today : String) : Option DBState :=
  let keep := s.pickup_events.filter fun r => ¬ futureOf location_id today r
  let rows := upsertRows location_id today events
  if rows.Nodup ∧ ∀ r ∈ rows, r ∉ keep then
    some { s with pickup_events := keep ++ rows }
  else none

/-- `N`-fold repetition of the same sync call (sharing one `today`). -/
def syncN (location_id : String) (events : List PickupEvent) (today : String) :
    Nat → DBState → Option DBState
  | 0, s => some s
  | n + 1, s =>
    match upsert_events s location_id events today with
    | none => none
    | some s' => syncN location_id events today n s'

/-! ### The transaction model for `upsert_events`

Every SQL statement of `upsert_events` runs on the transaction handle `tx`
(never directly on the pool), and `commit` is the last step.  To state what
that buys, statements are modelled with an explicit connection target; a
runner executes them with a possible injected failure and yields the state
a concurrent reader of the committed database would see afterwards. -/

inductive SqlTarget : Type where
  | tx : SqlTarget
  | pool : SqlTarget
deriving DecidableEq, Repr

/-- The insert batches produced by the source's buffer loop: push each row,
flush the buffer whenever it reaches 250 rows, and flush the non-empty
remainder at the end. -/
def insertBatches (buffer : List EventRow) : List EventRow → List (List EventRow)
  | [] => if buffer.isEmpty then [] else [buffer]
  | r :: rest =>
    if (buffer ++ [r]).length ≥ 250 then (buffer ++ [r]) :: insertBatches [] rest
    else insertBatches (buffer ++ [r]) rest

/-- The statement sequence of `upsert_events`: the ranged delete, then one
batched insert per chunk; every statement targets the transaction. -/
def upsertStmts (location_id today : String) (events : List PickupEvent) :
    List (SqlTarget × (List EventRow → List EventRow)) :=
  (SqlTarget.tx, fun evs => evs.filter fun r => ¬ futureOf location_id today r)
  :: (insertBatches [] (upsertRows location_id today events)).map fun chunk =>
       (SqlTarget.tx, fun evs => evs ++ chunk)

/-- Transactional runner: `committed` is what concurrent readers see, `txv`
the transaction's view.  A statement executed on the transaction mutates
only `txv`; one executed directly on the pool mutates the committed state
at once.  If the statement at index `failAt` fails, the transaction is
dropped (rolled back) and the committed state at that moment is the
result; otherwise the final `commit` publishes `txv`. -/
def runTx (committed txv : List EventRow)
    (stmts : List (SqlTarget × (List EventRow → List EventRow)))
    (failAt : Option Nat) (idx : Nat) : List EventRow :=
  match stmts with
  | [] => txv
  | (tgt, f) :: rest =>
    if failAt = some idx then committed
    else
      match tgt with
      | .tx => runTx committed (f txv) rest failAt (idx + 1)
      | .pool => runTx (f committed) txv rest failAt (idx + 1)

/-! ### `get_users_to_notify` -/

/-- `NotificationTask` from `src/store.rs`. -/
structure NotificationTask where
  chat_id : Int
  waste_type : String
  location_alias : Option String
  location_id : String
  notify_offset : Int
deriving DecidableEq, Repr

/-- The display label the dispatcher derives from a task
(`task.location_alias.as_deref().unwrap_or(&task.location_id)` in
`src/scheduler.rs`): the alias when set, else the location code. -/
def NotificationTask.displayLabel (t : NotificationTask) : String :=
  t.location_alias.getD t.location_id

/-- One stage of the matcher join: the tasks contributed by the pickup
events matching subscription `sub` of binding `ul` of user `u` (the
`JOIN pickup_events e ON ul.location_id = e.location_id AND
s.waste_type = e.waste_type` plus the `WHERE` clause). -/
def tasksOfSub (s : DBState) (check_time current_date next_date : String)
    (u : Int) (ul : Binding) (sub : SubRow) : List NotificationTask :=
  (s.pickup_events.filter fun e =>
      e.location_id = ul.location_id ∧ sub.waste_type = e.waste_type).filterMap
    fun e =>
      if ul.notify_time = check_time ∧
          ((ul.notify_offset = 0 ∧ e.date = current_date) ∨
           (ul.notify_offset = 1 ∧ e.date = next_date)) then
        some ⟨u, sub.waste_type, ul.alias_col, ul.location_id, ul.notify_offset⟩
      else none

/-- The tasks contributed by binding `ul` of user `u` (the join with
`subscriptions`). -/
def tasksOfBinding (s : DBState) (check_time current_date next_date : String)
    (u : Int) (ul : Binding) : List NotificationTask :=
  (s.subscriptions.filter fun sub => sub.user_location_id = ul.id).flatMap
    (tasksOfSub s check_time current_date next_date u ul)

/-- The tasks contributed by user `u` (the join with `user_locations`). -/
def tasksOfUser (s : DBState) (check_time current_date next_date : String)
    (u : Int) : List NotificationTask :=
  (s.user_locations.filter fun ul => ul.user_id = u).flatMap
    (tasksOfBinding s check_time current_date next_date u)

/-- `get_users_to_notify` from `src/store.rs`: the four-table join,
filtered on `notify_time = check_time` and on
`(notify_offset = 0 AND date = current_date) OR
 (notify_offset = 1 AND date = next_date)`.
SQL row order is unspecified; the embedding fixes the nested-loop order,
and the claims are stated up to multiplicity. -/
def get_users_to_notify (s : DBState) (check_time current_date next_date : String) :
    List NotificationTask :=
  s.users.flatMap (tasksOfUser s check_time current_date next_date)

/-- The task emitted for binding `b` and waste-type string `w`. -/
def mkTask (b : Binding) (w : String) : NotificationTask :=
  ⟨b.user_id, w, b.alias_col, b.location_id, b.notify_offset⟩

/-- The matcher's due condition for binding `b` and waste-type string `w`:
the binding is scheduled at this slot, `w` is among its subscriptions, and
a pickup event exists at the binding's location for the date resolved from
the binding's offset. -/
def dueCond (s : DBState) (check_time current_date next_date : String)
    (b : Binding) (w : String) : Prop :=
  b.notify_time = check_time ∧
  (⟨b.id, w⟩ : SubRow) ∈ s.subscriptions ∧
  ((b.notify_offset = 0 ∧ (⟨b.location_id, current_date, w⟩ : EventRow) ∈ s.pickup_events) ∨
   (b.notify_offset = 1 ∧ (⟨b.location_id, next_date, w⟩ : EventRow) ∈ s.pickup_events))

instance (s : DBState) (check_time current_date next_date : String)
    (b : Binding) (w : String) :
    Decidable (dueCond s check_time current_date next_date b w) := by
  unfold dueCond; infer_instance

/-! ### Schema-level well-formedness

The uniqueness and foreign-key constraints declared in `create_schema`
(`src/db.rs`), as a predicate on `DBState`. -/

structure WF (s : DBState) : Prop where
  users_nodup : s.users.Nodup
  ids_nodup : (s.user_locations.map Binding.id).Nodup
  keys_nodup : (s.user_locations.map fun b => (b.user_id, b.location_id)).Nodup
  ids_lt : ∀ b ∈ s.user_locations, b.id < s.next_binding_id
  binding_user : ∀ b ∈ s.user_locations, b.user_id ∈ s.users
  sub_binding : ∀ sub ∈ s.subscriptions, ∃ b ∈ s.user_locations, b.id = sub.user_location_id
  subs_nodup : s.subscriptions.Nodup
  events_nodup : s.pickup_events.Nodup

/-- States reachable from the fresh schema through the store operations. -/
inductive Reachable : DBState → Prop where
  | init : Reachable initState
  | create_user {s} (chat_id : Int) :
      Reachable s → Reachable (create_user s chat_id)
  | delete_user {s} (chat_id : Int) :
      Reachable s → Reachable (delete_user s chat_id)
  | add_user_location {s} (chat_id : Int) (location_id : String)
      (alias_col : Option String) :
      Reachable s → Reachable (add_user_location s chat_id location_id alias_col).2
  | delete_user_location {s} (chat_id : Int) (key : String) :
      Reachable s → Reachable (delete_user_location s chat_id key).2
  | update_notify_time {s} (chat_id : Int) (key : String) (time : String) :
      Reachable s → Reachable (update_notify_time s chat_id key time).2
  | update_notify_offset {s} (chat_id : Int) (key : String) (offset : Int) :
      Reachable s → Reachable (update_notify_offset s chat_id key offset).2
  | add_subscription {s s'} (user_location_id : Int) (waste_type : String) :
      Reachable s → add_subscription s user_location_id waste_type = some s' →
      Reachable s'
  | remove_subscription {s} (user_location_id : Int) (waste_type : String) :
      Reachable s → Reachable (remove_subscription s user_location_id waste_type)
  | upsert_events {s s'} (location_id : String) (events : List PickupEvent)
      (today : String) :
      Reachable s → upsert_events s location_id events today = some s' →
      Reachable s'

/-- Relation between an iCal entry and the `PickupEvent` produced for it:
extraction succeeds with some date and summary, and the event carries that
date together with every canonicalized label of the summary. -/
def entryRel (e : IcalEvent) (ev : PickupEvent) : Prop :=
  ∃ d s, extract_event_data e = Except.ok (d, s) ∧
    ev = ⟨d, normalize_waste_types s⟩

/-! ## Theorems -/

/-- Fallback/table characterization of `WasteType.fromStr`: lookup in the
synonym table on the trimmed input, `Other (trimmed)` when absent. -/
theorem fromStr_table (s : String) :
    WasteType.fromStr s =
      ((synonymTable.find? fun p => p.1 = strTrim s).map Prod.snd).getD
        (.Other (strTrim s)) := by
  unfold WasteType.fromStr
  generalize strTrim s = n
  show (match n with
    | "Bio" | "Biotonne" => WasteType.Bio
    | "Rest" | "Restmüll" | "Restabfall" => .Rest
    | "Papier" | "Pappe" | "Blaue Tonne" => .Paper
    | "Gelb" | "Gelbe Tonne" | "Gelber Sack" => .Yellow
    | "Weihnachtsbaum" | "Weihnachtsbäume" => .ChristmasTree
    | _ => .Other n) = _
  split <;> simp_all [synonymTable, List.find?, eq_comm]

/-- C5 — Canonicalization totality and definition: `normalize_waste_types`
is a total pure function; it splits its input on commas, trims each
fragment, drops empty fragments, and maps each remaining fragment through
the synonym table with fallback `Other (fragment)`; concretely,
`normalize("") = []`, `normalize("Bio, Rest") = [Bio, Rest]`,
`normalize("UnknownLabel") = [Other "UnknownLabel"]`, and whitespace around
labels is ignored. -/
theorem C5_canonicalization_totality :
    normalize_waste_types "" = [] ∧
    normalize_waste_types "Bio, Rest" = [.Bio, .Rest] ∧
    normalize_waste_types "UnknownLabel" = [.Other "UnknownLabel"] ∧
    normalize_waste_types " Bio ,  Rest " = [.Bio, .Rest] ∧
    (∀ s : String, normalize_waste_types s =
      (((splitChar ',' s).map strTrim).filter fun t => t ≠ "").map
        (fun frag =>
          ((synonymTable.find? fun p => p.1 = strTrim frag).map Prod.snd).getD
            (.Other (strTrim frag)))) :=
  ⟨by decide, by decide, by decide, by decide, fun s => by
    unfold normalize_waste_types
    exact List.map_congr_left fun frag _ => fromStr_table frag⟩

/-! ### Sync lemmas -/

/-- Unfolding a successful `upsert_events` call. -/
theorem upsert_events_eq {s : DBState} {loc : String} {E : List PickupEvent}
    {today : String} {s₁ : DBState} (h : upsert_events s loc E today = some s₁) :
    (upsertRows loc today E).Nodup ∧
    (∀ r ∈ upsertRows loc today E,
      r ∉ s.pickup_events.filter fun r => ¬ futureOf loc today r) ∧
    s₁ = { s with pickup_events :=
      (s.pickup_events.filter fun r => ¬ futureOf loc today r) ++
        upsertRows loc today E } := by
  rw [upsert_events] at h
  split at h
  · rename_i hc
    exact ⟨hc.1, hc.2, (Option.some.inj h).symm⟩
  · exact absurd h (by simp)

/-- Membership in the inserted rows. -/
theorem mem_upsertRows {loc today : String} {E : List PickupEvent} {r : EventRow} :
    r ∈ upsertRows loc today E ↔
      ∃ e ∈ E, strLtB (formatDate e.date) today = false ∧
        ∃ w ∈ e.waste_types, r = ⟨loc, formatDate e.date, w.asStr⟩ := by
  unfold upsertRows
  simp only [List.mem_flatMap]
  constructor
  · rintro ⟨e, he, hr⟩
    by_cases hd : strLtB (formatDate e.date) today
    · simp [hd] at hr
    · simp only [hd, if_neg, Bool.false_eq_true, not_false_eq_true, if_false,
        List.mem_map] at hr
      obtain ⟨w, hw, hwr⟩ := hr
      exact ⟨e, he, by simpa using hd, w, hw, hwr.symm⟩
  · rintro ⟨e, he, hd, w, hw, hr⟩
    exact ⟨e, he, by simp [hd, hr, List.mem_map]; exact ⟨w, hw, rfl⟩⟩

/-- Every inserted row is a future-dated row of the synced location. -/
theorem upsertRows_future {loc today : String} {E : List PickupEvent} {r : EventRow}
    (h : r ∈ upsertRows loc today E) :
    r.location_id = loc ∧ strLtB r.date today = false := by
  obtain ⟨e, _, hd, w, _, rfl⟩ := mem_upsertRows.mp h
  exact ⟨rfl, hd⟩

/-- A successful sync is a fixed point: running the same call on its own
result succeeds and changes nothing. -/
theorem upsert_events_stable {s : DBState} {loc : String} {E : List PickupEvent}
    {today : String} {s₁ : DBState} (h : upsert_events s loc E today = some s₁) :
    upsert_events s₁ loc E today = some s₁ := by
  obtain ⟨hnd, hdisj, rfl⟩ := upsert_events_eq h
  unfold upsert_events
  have hkeep :
      ((s.pickup_events.filter fun r => ¬ futureOf loc today r) ++
          upsertRows loc today E).filter (fun r => ¬ futureOf loc today r) =
        s.pickup_events.filter fun r => ¬ futureOf loc today r := by
    rw [List.filter_append]
    have h1 : (s.pickup_events.filter fun r => ¬ futureOf loc today r).filter
        (fun r => ¬ futureOf loc today r) =
        s.pickup_events.filter fun r => ¬ futureOf loc today r :=
      List.filter_eq_self.mpr fun a ha => (List.mem_filter.mp ha).2
    have h2 : (upsertRows loc today E).filter (fun r => ¬ futureOf loc today r) = [] := by
      rw [List.filter_eq_nil_iff]
      intro r hr
      obtain ⟨hl, hd⟩ := upsertRows_future hr
      simp [futureOf, hl, strGeB, hd]
    rw [h1, h2, List.append_nil]
  simp only [hkeep]
  rw [if_pos ⟨hnd, hdisj⟩]

/-- C2 — Idempotent sync: if one application of `upsert_events` succeeds
with result `s₁`, then `N ≥ 1` applications (sharing the same `today`)
succeed with the same result, and the stored future-dated event set for the
location equals the supplied events restricted to dates on-or-after today
(one row per `(date, waste type)` of the feed). -/
theorem C2_idempotent_sync (s s₁ : DBState) (loc today : String)
    (E : List PickupEvent) (h : upsert_events s loc E today = some s₁) :
    (∀ N, 1 ≤ N → syncN loc E today N s = some s₁) ∧
    s₁.pickup_events.filter (fun r => futureOf loc today r) = upsertRows loc today E ∧
    (∀ r : EventRow, (r ∈ s₁.pickup_events ∧ futureOf loc today r) ↔
      ∃ e ∈ E, strLtB (formatDate e.date) today = false ∧
        ∃ w ∈ e.waste_types, r = ⟨loc, formatDate e.date, w.asStr⟩) := by
  have hstable := upsert_events_stable h
  obtain ⟨hnd, hdisj, hs₁⟩ := upsert_events_eq h
  refine ⟨?_, ?_, ?_⟩
  · intro N hN
    obtain ⟨M, rfl⟩ : ∃ M, N = M + 1 := ⟨N - 1, by omega⟩
    clear hN
    induction M with
    | zero => simp [syncN, h]
    | succ M ih =>
      show syncN loc E today (M + 1 + 1) s = some s₁
      rw [syncN, h]
      have : ∀ K, syncN loc E today K s₁ = some s₁ := by
        intro K
        induction K with
        | zero => rfl
        | succ K ihK => rw [syncN, hstable]; exact ihK
      exact this (M + 1)
  · rw [hs₁]
    simp only [List.filter_append]
    have h1 : (s.pickup_events.filter fun r => ¬ futureOf loc today r).filter
        (fun r => futureOf loc today r) = [] := by
      rw [List.filter_eq_nil_iff]
      intro r hr
      have := (List.mem_filter.mp hr).2
      simp_all
    have h2 : (upsertRows loc today E).filter (fun r => futureOf loc today r) =
        upsertRows loc today E := by
      apply List.filter_eq_self.mpr
      intro r hr
      obtain ⟨hl, hd⟩ := upsertRows_future hr
      simp [futureOf, hl, strGeB, hd]
    rw [h1, h2, List.nil_append]
  · intro r
    rw [← mem_upsertRows]
    constructor
    · rintro ⟨hm, hf⟩
      rw [hs₁] at hm
      simp only [List.mem_append] at hm
      rcases hm with hm | hm
      · have := (List.mem_filter.mp hm).2
        simp only [decide_eq_true_eq] at this
        exact absurd hf this
      · exact hm
    · intro hr
      obtain ⟨hl, hd⟩ := upsertRows_future hr
      rw [hs₁]
      exact ⟨List.mem_append_right _ hr, hl, by simp [strGeB, hd]⟩

/-- C3 — History immutability and stale-event discard: a successful sync
leaves every event dated before `today` — at the synced location and at
every other location — exactly in place (the past-dated sublist and every
past-dated row's multiplicity are unchanged, and rows of other locations
are untouched), and never inserts a supplied row dated before `today`. -/
theorem C3_history_immutability (s s₁ : DBState) (loc today : String)
    (E : List PickupEvent) (h : upsert_events s loc E today = some s₁) :
    s₁.pickup_events.filter (fun r => strLtB r.date today) =
      s.pickup_events.filter (fun r => strLtB r.date today) ∧
    s₁.pickup_events.filter (fun r => r.location_id ≠ loc) =
      s.pickup_events.filter (fun r => r.location_id ≠ loc) ∧
    (∀ r : EventRow, strLtB r.date today = true →
      s₁.pickup_events.count r = s.pickup_events.count r) ∧
    (∀ r ∈ upsertRows loc today E, strLtB r.date today = false) := by
  obtain ⟨hnd, hdisj, hs₁⟩ := upsert_events_eq h
  have hrowspast : ∀ r ∈ upsertRows loc today E, strLtB r.date today = false :=
    fun r hr => (upsertRows_future hr).2
  refine ⟨?_, ?_, ?_, hrowspast⟩
  · rw [hs₁]
    simp only [List.filter_append]
    have h2 : (upsertRows loc today E).filter (fun r => strLtB r.date today) = [] := by
      rw [List.filter_eq_nil_iff]
      intro r hr
      simp [hrowspast r hr]
    rw [h2, List.append_nil, List.filter_filter]
    apply List.filter_congr
    intro r _
    by_cases hp : strLtB r.date today
    · simp [hp, futureOf, strGeB]
    · simp [hp]
  · rw [hs₁]
    simp only [List.filter_append]
    have h2 : (upsertRows loc today E).filter (fun r => r.location_id ≠ loc) = [] := by
      rw [List.filter_eq_nil_iff]
      intro r hr
      simp [(upsertRows_future hr).1]
    rw [h2, List.append_nil, List.filter_filter]
    apply List.filter_congr
    intro r _
    by_cases hp : r.location_id = loc
    · simp [hp]
    · simp [hp, futureOf]
  · intro r hpast
    rw [hs₁]
    simp only [List.count_append]
    have h2 : (upsertRows loc today E).count r = 0 := by
      rw [List.count_eq_zero]
      intro hr
      simp [hrowspast r hr] at hpast
    have h1 : (s.pickup_events.filter fun r => ¬ futureOf loc today r).count r =
        s.pickup_events.count r := by
      apply List.count_filter
      simp [futureOf, strGeB, hpast]
    omega

/-! ### Transaction lemmas -/

/-- The insert batches reassemble to the buffered prefix followed by the
remaining rows. -/
theorem insertBatches_flatten :
    ∀ (l buffer : List EventRow), (insertBatches buffer l).flatten = buffer ++ l := by
  intro l
  induction l with
  | nil =>
    intro buffer
    rw [insertBatches]
    by_cases hb : buffer.isEmpty
    · rw [if_pos hb]
      rw [List.isEmpty_iff] at hb
      subst hb
      rfl
    · rw [if_neg hb]
      simp
  | cons r rest ih =>
    intro buffer
    rw [insertBatches]
    by_cases hlen : (buffer ++ [r]).length ≥ 250
    · rw [if_pos hlen, List.flatten_cons, ih []]
      simp
    · rw [if_neg hlen, ih (buffer ++ [r])]
      simp

/-- If every statement runs on the transaction, a failure at any statement
leaves the committed state untouched. -/
theorem runTx_rollback
    (stmts : List (SqlTarget × (List EventRow → List EventRow)))
    (htx : ∀ p ∈ stmts, p.1 = SqlTarget.tx) :
    ∀ (committed txv : List EventRow) (idx k : Nat), k < stmts.length →
      runTx committed txv stmts (some (idx + k)) idx = committed := by
  induction stmts with
  | nil => intro _ _ _ k hk; exact absurd hk (by simp)
  | cons p rest ih =>
    intro committed txv idx k hk
    obtain ⟨tgt, f⟩ := p
    have htgt : tgt = SqlTarget.tx := htx (tgt, f) (List.mem_cons_self _ _)
    subst htgt
    match k with
    | 0 => simp [runTx]
    | k + 1 =>
      rw [runTx]
      rw [if_neg (by simp)]
      have : idx + (k + 1) = (idx + 1) + k := by omega
      rw [this]
      exact ih (fun q hq => htx q (List.mem_cons_of_mem _ hq)) committed (f txv)
        (idx + 1) k (by simpa using hk)

/-- Without a failure, the runner commits the fold of the statements over
the transaction view. -/
theorem runTx_commit_chunks (chunks : List (List EventRow)) :
    ∀ (committed txv : List EventRow) (idx : Nat),
      runTx committed txv
        (chunks.map fun chunk => (SqlTarget.tx, fun evs => evs ++ chunk))
        none idx = txv ++ chunks.flatten := by
  induction chunks with
  | nil => intro _ txv _; simp [runTx]
  | cons c rest ih =>
    intro committed txv idx
    rw [List.map_cons, runTx, if_neg (by simp)]
    rw [ih committed (txv ++ c) (idx + 1)]
    simp

/-- C4 — Sync atomicity: every statement of `upsert_events` (the ranged
delete and each batched insert) targets the single transaction, so a
failure at any step — including a middle insert batch — leaves the
committed pickup-event table exactly in its pre-call state, while a
failure-free run commits the fully replaced future set (the same contents
`upsert_events` reports). -/
theorem C4_sync_atomicity (loc today : String) (E : List PickupEvent)
    (evs : List EventRow) :
    (∀ k, k < (upsertStmts loc today E).length →
      runTx evs evs (upsertStmts loc today E) (some k) 0 = evs) ∧
    runTx evs evs (upsertStmts loc today E) none 0 =
      (evs.filter fun r => ¬ futureOf loc today r) ++ upsertRows loc today E ∧
    (∀ s s₁ : DBState, s.pickup_events = evs →
      upsert_events s loc E today = some s₁ →
      s₁.pickup_events = runTx evs evs (upsertStmts loc today E) none 0) := by
  have htx : ∀ p ∈ upsertStmts loc today E, p.1 = SqlTarget.tx := by
    intro p hp
    unfold upsertStmts at hp
    rcases List.mem_cons.mp hp with h | h
    · rw [h]
    · obtain ⟨chunk, _, rfl⟩ := List.mem_map.mp h
      rfl
  have hcommit : runTx evs evs (upsertStmts loc today E) none 0 =
      (evs.filter fun r => ¬ futureOf loc today r) ++ upsertRows loc today E := by
    rw [upsertStmts, runTx, if_neg (by simp)]
    rw [runTx_commit_chunks, insertBatches_flatten, List.nil_append]
  refine ⟨?_, hcommit, ?_⟩
  · intro k hk
    have := runTx_rollback (upsertStmts loc today E) htx evs evs 0 k hk
    simpa using this
  · intro s s₁ hse hup
    obtain ⟨_, _, rfl⟩ := upsert_events_eq hup
    rw [hcommit, hse]

/-! ### Parser lemmas -/

/-- A successful parse pairs the entries with their events one-to-one. -/
theorem parseEvents_ok_forall₂ {es : List IcalEvent} {evs : List PickupEvent}
    (h : parseEvents es = .ok evs) : List.Forall₂ entryRel es evs := by
  induction es generalizing evs with
  | nil =>
    rw [parseEvents] at h
    cases h
    exact List.Forall₂.nil
  | cons e rest ih =>
    rw [parseEvents] at h
    match hx : extract_event_data e with
    | .error err => rw [hx] at h; cases h
    | .ok (d, s) =>
      rw [hx] at h
      match hr : parseEvents rest with
      | .error err => rw [hr] at h; cases h
      | .ok evs' =>
        rw [hr] at h
        cases h
        exact List.Forall₂.cons ⟨d, s, hx, rfl⟩ (ih hr)

/-- Left-to-right projection of `Forall₂`. -/
theorem forall₂_exists_of_mem_left {α β : Type} {R : α → β → Prop}
    {l₁ : List α} {l₂ : List β} (h : List.Forall₂ R l₁ l₂) :
    ∀ x ∈ l₁, ∃ y, R x y := by
  induction h with
  | nil => intro x hx; cases hx
  | cons hR _ ih =>
    intro x hx
    rcases List.mem_cons.mp hx with rfl | hx
    · exact ⟨_, hR⟩
    · exact ih x hx

/-- The property scan ignores a prefix holding no valued `DTSTART`
(summaries may still change the summary accumulator). -/
theorem extractLoop_skip {props : List IcalProperty}
    (h : ∀ p ∈ props, p.name = "DTSTART" → p.value = none)
    (rest : List IcalProperty) (d0 : Option Date) :
    ∀ s0, ∃ s', extractLoop (props ++ rest) d0 s0 = extractLoop rest d0 s' := by
  induction props with
  | nil => exact fun s0 => ⟨s0, rfl⟩
  | cons p ps ih =>
    intro s0
    have hps : ∀ q ∈ ps, q.name = "DTSTART" → q.value = none :=
      fun q hq => h q (List.mem_cons_of_mem _ hq)
    rw [List.cons_append, extractLoop]
    by_cases hdt : p.name = "DTSTART"
    · have hv : p.value = none := h p (List.mem_cons_self _ _) hdt
      rw [if_pos hdt]
      simp only [hv]
      exact ih hps s0
    · rw [if_neg hdt]
      by_cases hsum : p.name = "SUMMARY"
      · rw [if_pos hsum]
        exact ih hps p.value
      · rw [if_neg hsum]
        exact ih hps s0

/-- When every `SUMMARY` is valueless and every valued `DTSTART` parses,
the scan succeeds with no summary, and the resulting date is present as
soon as the initial date is or some valued `DTSTART` occurs. -/
theorem extractLoop_good {props : List IcalProperty}
    (hsum : ∀ p ∈ props, p.name = "SUMMARY" → p.value = none)
    (hdt : ∀ p ∈ props, ∀ v, p.name = "DTSTART" → p.value = some v →
      parseCompactDate (dtClean v) ≠ none) :
    ∀ d0 : Option Date, ∃ d',
      extractLoop props d0 none = .ok (d', none) ∧
      ((d0.isSome ∨ ∃ p ∈ props, p.name = "DTSTART" ∧ p.value ≠ none) →
        d'.isSome) := by
  induction props with
  | nil =>
    intro d0
    refine ⟨d0, rfl, ?_⟩
    rintro (h0 | ⟨p, hp, _⟩)
    · exact h0
    · cases hp
  | cons p ps ih =>
    have hsum' : ∀ q ∈ ps, q.name = "SUMMARY" → q.value = none :=
      fun q hq => hsum q (List.mem_cons_of_mem _ hq)
    have hdt' : ∀ q ∈ ps, ∀ v, q.name = "DTSTART" → q.value = some v →
        parseCompactDate (dtClean v) ≠ none :=
      fun q hq => hdt q (List.mem_cons_of_mem _ hq)
    intro d0
    rw [extractLoop]
    by_cases hd : p.name = "DTSTART"
    · rw [if_pos hd]
      cases hv : p.value with
      | some v =>
        have hparse := hdt p (List.mem_cons_self _ _) v hd hv
        dsimp only
        cases hpc : parseCompactDate (dtClean v) with
        | none => exact absurd hpc hparse
        | some dd =>
          dsimp only
          obtain ⟨d', heq, himp⟩ := ih hsum' hdt' (some dd)
          exact ⟨d', heq, fun _ => himp (Or.inl rfl)⟩
      | none =>
        obtain ⟨d', heq, himp⟩ := ih hsum' hdt' d0
        refine ⟨d', heq, ?_⟩
        rintro (h0 | ⟨q, hq, hqd, hqv⟩)
        · exact himp (Or.inl h0)
        · rcases List.mem_cons.mp hq with rfl | hq
          · exact absurd hv hqv
          · exact himp (Or.inr ⟨q, hq, hqd, hqv⟩)
    · rw [if_neg hd]
      by_cases hs : p.name = "SUMMARY"
      · rw [if_pos hs]
        have hv : p.value = none := hsum p (List.mem_cons_self _ _) hs
        rw [hv]
        obtain ⟨d', heq, himp⟩ := ih hsum' hdt' d0
        refine ⟨d', heq, ?_⟩
        rintro (h0 | ⟨q, hq, hqd, hqv⟩)
        · exact himp (Or.inl h0)
        · rcases List.mem_cons.mp hq with rfl | hq
          · exact absurd hqd hd
          · exact himp (Or.inr ⟨q, hq, hqd, hqv⟩)
      · rw [if_neg hs]
        obtain ⟨d', heq, himp⟩ := ih hsum' hdt' d0
        refine ⟨d', heq, ?_⟩
        rintro (h0 | ⟨q, hq, hqd, hqv⟩)
        · exact himp (Or.inl h0)
        · rcases List.mem_cons.mp hq with rfl | hq
          · exact absurd hqd hd
          · exact himp (Or.inr ⟨q, hq, hqd, hqv⟩)

/-- C7 — Parse failure taxonomy: an entry with no valued start date fails
with `MissingDate`; an entry whose first valued `DTSTART` fails the compact
date format fails with `InvalidDate` carrying the raw value; an entry with
a valid date but no valued summary fails with `MissingSummary`; and a
successful `parse_ical` certifies that every entry of every calendar
extracted cleanly — entry failures are surfaced, never coerced into an
empty or partial result. -/
theorem C7_parse_failure_taxonomy :
    (∀ e : IcalEvent,
      (∀ p ∈ e.properties, p.name = "DTSTART" → p.value = none) →
      extract_event_data e = .error .MissingDate) ∧
    (∀ (props₁ props₂ : List IcalProperty) (v : String),
      (∀ p ∈ props₁, p.name = "DTSTART" → p.value = none) →
      parseCompactDate (dtClean v) = none →
      extract_event_data ⟨props₁ ++ ⟨"DTSTART", some v⟩ :: props₂⟩ =
        .error (.InvalidDate v)) ∧
    (∀ e : IcalEvent,
      (∀ p ∈ e.properties, p.name = "SUMMARY" → p.value = none) →
      (∃ p ∈ e.properties, p.name = "DTSTART" ∧ p.value ≠ none) →
      (∀ p ∈ e.properties, ∀ v, p.name = "DTSTART" → p.value = some v →
        parseCompactDate (dtClean v) ≠ none) →
      extract_event_data e = .error .MissingSummary) ∧
    (∀ (cals : List IcalCalendar) (evs : List PickupEvent),
      parse_ical cals = .ok evs →
      ∀ cal ∈ cals, ∀ e ∈ cal.events,
        ∃ d s, extract_event_data e = Except.ok (d, s)) := by
  refine ⟨?_, ?_, ?_, ?_⟩
  · intro e h
    obtain ⟨s', hs'⟩ := extractLoop_skip h [] none none
    rw [List.append_nil] at hs'
    unfold extract_event_data
    rw [hs']
    rfl
  · intro props₁ props₂ v h hbad
    obtain ⟨s', hs'⟩ := extractLoop_skip h (⟨"DTSTART", some v⟩ :: props₂) none none
    unfold extract_event_data
    show (match extractLoop (props₁ ++ ⟨"DTSTART", some v⟩ :: props₂) none none with
      | .error err => Except.error err
      | .ok (none, _) => Except.error ParseError.MissingDate
      | .ok (some _, none) => Except.error ParseError.MissingSummary
      | .ok (some d, some s) => Except.ok (d, s)) = Except.error (.InvalidDate v)
    rw [hs', extractLoop]
    simp [hbad]
  · intro e hsum hdtsome hdt
    obtain ⟨d', heq, himp⟩ := extractLoop_good hsum hdt none
    have : d'.isSome := himp (Or.inr hdtsome)
    obtain ⟨dd, rfl⟩ := Option.isSome_iff_exists.mp this
    unfold extract_event_data
    rw [heq]
  · intro cals evs h cal hcal e he
    have h₂ := parseEvents_ok_forall₂ h
    obtain ⟨ev, d, s, hok, _⟩ := forall₂_exists_of_mem_left h₂ e
      (List.mem_flatMap.mpr ⟨cal, hcal, he⟩)
    exact ⟨d, s, hok⟩

/-- C6 counterexample: a single calendar entry listing the two labels
`"Bio, Rest"` parses to ONE `PickupEvent` carrying both waste types — not
to two separate single-type events as the claim states. -/
theorem C6_counterexample :
    parse_ical [⟨[⟨[⟨"DTSTART", some "20231027"⟩, ⟨"SUMMARY", some "Bio, Rest"⟩]⟩]⟩] =
      .ok [⟨⟨2023, 10, 27⟩, [.Bio, .Rest]⟩] ∧
    ([(⟨⟨2023, 10, 27⟩, [.Bio, .Rest]⟩ : PickupEvent)]).length = 1 ∧
    (⟨⟨2023, 10, 27⟩, [.Bio, .Rest]⟩ : PickupEvent).waste_types.length = 2 := by
  exact ⟨rfl, rfl, rfl⟩

/-- C6 (amended) — One event record per entry: a successful parse yields
exactly one `PickupEvent` per calendar entry, in order; the event for an
entry carries the entry's start date and one waste type per comma-separated
label of its summary (the per-`(date, label)` row granularity arises later,
when `upsert_events` stores one row per waste type of each event). -/
theorem C6_one_event_per_entry (cals : List IcalCalendar) (evs : List PickupEvent)
    (h : parse_ical cals = .ok evs) :
    List.Forall₂ entryRel (cals.flatMap IcalCalendar.events) evs ∧
    evs.length = (cals.flatMap IcalCalendar.events).length := by
  have h₂ := parseEvents_ok_forall₂ h
  exact ⟨h₂, h₂.length_eq.symm⟩

/-! ### Subscription-store lemmas -/

/-- `create_user` is a no-op for an existing user. -/
theorem create_user_noop {s : DBState} {chat_id : Int} (h : chat_id ∈ s.users) :
    create_user s chat_id = s := by
  unfold create_user
  rw [if_pos h]

/-- Under the `UNIQUE(user_id, location_id)` constraint, `find?` returns
the one binding with the sought key. -/
theorem find?_of_key_nodup {l : List Binding} {b : Binding} {chat : Int}
    {loc : String} (hmem : b ∈ l) (hkey : bindingKey chat loc b)
    (hnodup : (l.map fun x => (x.user_id, x.location_id)).Nodup) :
    (l.find? fun x => decide (bindingKey chat loc x)) = some b := by
  induction l with
  | nil => cases hmem
  | cons hd t ih =>
    rw [List.map_cons, List.nodup_cons] at hnodup
    by_cases hk : bindingKey chat loc hd
    · rw [List.find?_cons_of_pos _ (by simp [hk])]
      rcases List.mem_cons.mp hmem with rfl | hmem'
      · rfl
      · exfalso
        apply hnodup.1
        rw [List.mem_map]
        refine ⟨b, hmem', ?_⟩
        obtain ⟨h1, h2⟩ := hk
        obtain ⟨h3, h4⟩ := hkey
        rw [h1, h2, h3, h4]
    · rw [List.find?_cons_of_neg _ (by simp [hk])]
      rcases List.mem_cons.mp hmem with rfl | hmem'
      · exact absurd hkey hk
      · exact ih hmem' hnodup.2

/-- C9 — Upsert frame: when a binding for `(chat, loc)` already exists,
`add_user_location` returns that binding's id and only replaces its alias;
its `notify_time` and `notify_offset` survive, no second binding appears
(the table keeps its length, and every non-matching binding is untouched),
and the other tables are untouched. -/
theorem C9_upsert_frame (s : DBState) (hWF : WF s) (b : Binding)
    (hb : b ∈ s.user_locations) (chat : Int) (loc : String)
    (hbu : b.user_id = chat) (hbl : b.location_id = loc)
    (newAlias : Option String) :
    (add_user_location s chat loc newAlias).1 = b.id ∧
    (add_user_location s chat loc newAlias).2.user_locations =
      s.user_locations.map (fun b' =>
        if bindingKey chat loc b' then { b' with alias_col := newAlias } else b') ∧
    { b with alias_col := newAlias } ∈
      (add_user_location s chat loc newAlias).2.user_locations ∧
    (∀ b' ∈ s.user_locations, ¬ bindingKey chat loc b' →
      b' ∈ (add_user_location s chat loc newAlias).2.user_locations) ∧
    (add_user_location s chat loc newAlias).2.user_locations.length =
      s.user_locations.length ∧
    (add_user_location s chat loc newAlias).2.users = s.users ∧
    (add_user_location s chat loc newAlias).2.subscriptions = s.subscriptions ∧
    (add_user_location s chat loc newAlias).2.pickup_events = s.pickup_events := by
  have hchat : chat ∈ s.users := hbu ▸ hWF.binding_user b hb
  have hkey : bindingKey chat loc b := ⟨hbu, hbl⟩
  have hfind := find?_of_key_nodup hb hkey hWF.keys_nodup
  unfold add_user_location
  rw [create_user_noop hchat]
  dsimp only
  rw [hfind]
  refine ⟨rfl, rfl, ?_, ?_, by simp, rfl, rfl, rfl⟩
  · rw [List.mem_map]
    exact ⟨b, hb, by rw [if_pos hkey]⟩
  · intro b' hb' hk
    rw [List.mem_map]
    exact ⟨b', hb', by rw [if_neg hk]⟩

/-- C10 — Binding selection by alias OR code: `delete_user_location`,
`update_notify_time` and `update_notify_offset` each affect exactly the
user's bindings whose alias equals the key or whose location code equals
the key — several at once when both kinds match — and return `true` iff at
least one binding matched.  The final conjuncts exhibit a user whose one
binding's code equals the other binding's alias: a single delete by that
key removes both. -/
theorem C10_alias_or_code (s : DBState) (chat : Int) (k time : String)
    (off : Int) :
    ((delete_user_location s chat k).1 = true ↔
      ∃ b ∈ s.user_locations, keyMatches chat k b) ∧
    (delete_user_location s chat k).2.user_locations =
      s.user_locations.filter (fun b => ¬ keyMatches chat k b) ∧
    (∀ b : Binding,
      (delete_user_location s chat k).2.user_locations.count b =
        if keyMatches chat k b then 0 else s.user_locations.count b) ∧
    ((update_notify_time s chat k time).1 = true ↔
      ∃ b ∈ s.user_locations, keyMatches chat k b) ∧
    (update_notify_time s chat k time).2.user_locations =
      s.user_locations.map (fun b =>
        if keyMatches chat k b then { b with notify_time := time } else b) ∧
    ((update_notify_offset s chat k off).1 = true ↔
      ∃ b ∈ s.user_locations, keyMatches chat k b) ∧
    (update_notify_offset s chat k off).2.user_locations =
      s.user_locations.map (fun b =>
        if keyMatches chat k b then { b with notify_offset := off } else b) ∧
    (delete_user_location
      ⟨[7], [⟨1, 7, "X", "18:00", 1, some "Y"⟩, ⟨2, 7, "Z", "18:00", 1, some "X"⟩],
       [], [], 3⟩ 7 "X").2.user_locations = [] ∧
    (delete_user_location
      ⟨[7], [⟨1, 7, "X", "18:00", 1, some "Y"⟩, ⟨2, 7, "Z", "18:00", 1, some "X"⟩],
       [], [], 3⟩ 7 "X").1 = true := by
  refine ⟨decide_eq_true_iff, rfl, ?_, decide_eq_true_iff, rfl,
    decide_eq_true_iff, rfl, by decide, by decide⟩
  intro b
  by_cases hk : keyMatches chat k b
  · rw [if_pos hk, List.count_eq_zero]
    intro hmem
    have := (List.mem_filter.mp hmem).2
    simp only [decide_eq_true_eq] at this
    exact this hk
  · rw [if_neg hk]
    exact List.count_filter (by simpa using hk)

/-! ### Matcher lemmas -/

/-- Counting in a `flatMap` whose branches never contain the target. -/
theorem count_flatMap_zero {α β : Type} [DecidableEq β] (l : List α)
    (F : α → List β) (t : β) (h : ∀ x ∈ l, t ∉ F x) :
    (l.flatMap F).count t = 0 := by
  rw [List.count_eq_zero]
  intro hmem
  obtain ⟨x, hx, htx⟩ := List.mem_flatMap.mp hmem
  exact h x hx htx

/-- Counting in a `flatMap` over a duplicate-free spine where only the
branch of `a` can contain the target. -/
theorem count_flatMap_single {α β : Type} [DecidableEq α] [DecidableEq β]
    {l : List α} (F : α → List β) (t : β) {a : α} (ha : a ∈ l)
    (hnd : l.Nodup) (hother : ∀ x ∈ l, x ≠ a → t ∉ F x) :
    (l.flatMap F).count t = (F a).count t := by
  induction l with
  | nil => cases ha
  | cons hd tl ih =>
    rw [List.flatMap_cons, List.count_append]
    rw [List.nodup_cons] at hnd
    rcases List.mem_cons.mp ha with rfl | ha'
    · have h0 : (tl.flatMap F).count t = 0 :=
        count_flatMap_zero _ _ _ fun x hx =>
          hother x (List.mem_cons_of_mem _ hx) fun he => hnd.1 (he ▸ hx)
      rw [h0]
      omega
    · have hne : hd ≠ a := fun he => hnd.1 (he ▸ ha')
      have h0 : (F hd).count t = 0 :=
        List.count_eq_zero.mpr (hother hd (List.mem_cons_self _ _) hne)
      rw [h0, ih ha' hnd.2 fun x hx hxa => hother x (List.mem_cons_of_mem _ hx) hxa]
      omega

/-- Every task emitted for subscription `sub` of binding `ul` of user `u`
is the canonical task of that join row. -/
theorem tasksOfSub_shape {s : DBState} {ct cd nd : String} {u : Int}
    {ul : Binding} {sub : SubRow} {task : NotificationTask}
    (h : task ∈ tasksOfSub s ct cd nd u ul sub) :
    task = ⟨u, sub.waste_type, ul.alias_col, ul.location_id, ul.notify_offset⟩ := by
  unfold tasksOfSub at h
  obtain ⟨e, _, hif⟩ := List.mem_filterMap.mp h
  split at hif
  · exact (Option.some.inj hif).symm
  · cases hif

/-- Every task emitted for binding `ul` of user `u` carries `u` as chat id
and `ul`'s location code. -/
theorem tasksOfBinding_shape {s : DBState} {ct cd nd : String} {u : Int}
    {ul : Binding} {task : NotificationTask}
    (h : task ∈ tasksOfBinding s ct cd nd u ul) :
    task.chat_id = u ∧ task.location_id = ul.location_id := by
  unfold tasksOfBinding at h
  obtain ⟨sub, _, htask⟩ := List.mem_flatMap.mp h
  rw [tasksOfSub_shape htask]
  exact ⟨rfl, rfl⟩

/-- Every task emitted for user `u` carries `u` as chat id. -/
theorem tasksOfUser_shape {s : DBState} {ct cd nd : String} {u : Int}
    {task : NotificationTask} (h : task ∈ tasksOfUser s ct cd nd u) :
    task.chat_id = u := by
  unfold tasksOfUser at h
  obtain ⟨ul, _, htask⟩ := List.mem_flatMap.mp h
  exact (tasksOfBinding_shape htask).1

/-- Exact multiplicity of the canonical task among the events joined for
the subscription row `(b.id, w)`. -/
theorem count_tasksOfSub (s : DBState) (ct cd nd : String) (b : Binding)
    (w : String) (hev : s.pickup_events.Nodup) :
    (tasksOfSub s ct cd nd b.user_id b ⟨b.id, w⟩).count (mkTask b w) =
      if b.notify_time = ct ∧
          ((b.notify_offset = 0 ∧ (⟨b.location_id, cd, w⟩ : EventRow) ∈ s.pickup_events) ∨
           (b.notify_offset = 1 ∧ (⟨b.location_id, nd, w⟩ : EventRow) ∈ s.pickup_events))
        then 1 else 0 := by
  unfold tasksOfSub mkTask
  rw [List.count_filterMap, List.countP_filter]
  by_cases hct : b.notify_time = ct
  · by_cases h0 : b.notify_offset = 0
    · have hpred : ∀ e ∈ s.pickup_events,
          (((if b.notify_time = ct ∧
                ((b.notify_offset = 0 ∧ e.date = cd) ∨
                 (b.notify_offset = 1 ∧ e.date = nd)) then
              some (⟨b.user_id, w, b.alias_col, b.location_id,
                b.notify_offset⟩ : NotificationTask)
            else none) == some ⟨b.user_id, w, b.alias_col, b.location_id,
              b.notify_offset⟩) &&
            decide (e.location_id = b.location_id ∧ w = e.waste_type)) = true ↔
          (e == (⟨b.location_id, cd, w⟩ : EventRow)) = true := by
        intro e _
        constructor
        · intro hp
          rw [Bool.and_eq_true] at hp
          obtain ⟨hbeq, hq⟩ := hp
          rw [decide_eq_true_eq] at hq
          split at hbeq
          · rename_i hcond
            rcases hcond.2 with ⟨_, hdate⟩ | ⟨hoff, _⟩
            · rw [beq_iff_eq]
              obtain ⟨hl, hw⟩ := hq
              cases e
              simp_all
            · rw [h0] at hoff
              exact absurd hoff (by decide)
          · simp at hbeq
        · intro he
          rw [beq_iff_eq] at he
          subst he
          simp [hct, h0]
      rw [List.countP_congr hpred, ← List.count_eq_countP]
      by_cases hm : (⟨b.location_id, cd, w⟩ : EventRow) ∈ s.pickup_events
      · rw [List.count_eq_one_of_mem hev hm,
          if_pos ⟨hct, Or.inl ⟨h0, hm⟩⟩]
      · rw [List.count_eq_zero_of_not_mem hm]
        rw [if_neg ?hneg]
        case hneg =>
          rintro ⟨-, ⟨-, hmm⟩ | ⟨hoff, -⟩⟩
          · exact hm hmm
          · rw [h0] at hoff
            exact absurd hoff (by decide)
    · by_cases h1 : b.notify_offset = 1
      · have hpred : ∀ e ∈ s.pickup_events,
            (((if b.notify_time = ct ∧
                  ((b.notify_offset = 0 ∧ e.date = cd) ∨
                   (b.notify_offset = 1 ∧ e.date = nd)) then
                some (⟨b.user_id, w, b.alias_col, b.location_id,
                  b.notify_offset⟩ : NotificationTask)
              else none) == some ⟨b.user_id, w, b.alias_col, b.location_id,
                b.notify_offset⟩) &&
              decide (e.location_id = b.location_id ∧ w = e.waste_type)) = true ↔
            (e == (⟨b.location_id, nd, w⟩ : EventRow)) = true := by
          intro e _
          constructor
          · intro hp
            rw [Bool.and_eq_true] at hp
            obtain ⟨hbeq, hq⟩ := hp
            rw [decide_eq_true_eq] at hq
            split at hbeq
            · rename_i hcond
              rcases hcond.2 with ⟨hoff, -⟩ | ⟨-, hdate⟩
              · rw [h1] at hoff
                exact absurd hoff (by decide)
              · rw [beq_iff_eq]
                obtain ⟨hl, hw⟩ := hq
                cases e
                simp_all
            · simp at hbeq
          · intro he
            rw [beq_iff_eq] at he
            subst he
            simp [hct, h1]
        rw [List.countP_congr hpred, ← List.count_eq_countP]
        by_cases hm : (⟨b.location_id, nd, w⟩ : EventRow) ∈ s.pickup_events
        · rw [List.count_eq_one_of_mem hev hm,
            if_pos ⟨hct, Or.inr ⟨h1, hm⟩⟩]
        · rw [List.count_eq_zero_of_not_mem hm]
          rw [if_neg ?hneg1]
          case hneg1 =>
            rintro ⟨-, ⟨hoff, -⟩ | ⟨-, hmm⟩⟩
            · rw [h1] at hoff
              exact absurd hoff (by decide)
            · exact hm hmm
      · rw [if_neg ?hneg2]
        case hneg2 =>
          rintro ⟨-, ⟨hoff, -⟩ | ⟨hoff, -⟩⟩
          · exact h0 hoff
          · exact h1 hoff
        apply List.countP_eq_zero.mpr
        intro e _
        simp [h0, h1]
  · rw [if_neg fun hc => hct hc.1]
    apply List.countP_eq_zero.mpr
    intro e _
    simp [hct]

/-- Exact multiplicity of the canonical task among the subscriptions of a
binding. -/
theorem count_tasksOfBinding (s : DBState) (ct cd nd : String) (b : Binding)
    (w : String) (hsubs : s.subscriptions.Nodup)
    (hev : s.pickup_events.Nodup) :
    (tasksOfBinding s ct cd nd b.user_id b).count (mkTask b w) =
      if dueCond s ct cd nd b w then 1 else 0 := by
  unfold tasksOfBinding
  by_cases hsub : (⟨b.id, w⟩ : SubRow) ∈ s.subscriptions
  · have hmemf : (⟨b.id, w⟩ : SubRow) ∈
        s.subscriptions.filter fun sub => sub.user_location_id = b.id :=
      List.mem_filter.mpr ⟨hsub, by simp⟩
    rw [count_flatMap_single _ _ hmemf (hsubs.filter _) ?hother]
    case hother =>
      intro sub hsubmem hne htask
      have hshape := tasksOfSub_shape htask
      have hul : sub.user_location_id = b.id := by
        have := (List.mem_filter.mp hsubmem).2
        simpa using this
      have hwt : w = sub.waste_type := by
        rw [mkTask] at hshape
        exact congrArg NotificationTask.waste_type hshape
      apply hne
      cases sub
      simp_all
    rw [count_tasksOfSub s ct cd nd b w hev]
    apply if_congr _ rfl rfl
    unfold dueCond
    constructor
    · rintro ⟨h1, h2⟩
      exact ⟨h1, hsub, h2⟩
    · rintro ⟨h1, -, h2⟩
      exact ⟨h1, h2⟩
  · rw [count_flatMap_zero _ _ _ ?hzero]
    case hzero =>
      intro sub hsubmem htask
      have hshape := tasksOfSub_shape htask
      have hul : sub.user_location_id = b.id := by
        have := (List.mem_filter.mp hsubmem).2
        simpa using this
      have hwt : w = sub.waste_type := by
        rw [mkTask] at hshape
        exact congrArg NotificationTask.waste_type hshape
      apply hsub
      have : (⟨b.id, w⟩ : SubRow) = sub := by
        cases sub
        simp_all
      rw [this]
      exact (List.mem_filter.mp hsubmem).1
    rw [if_neg fun hd => hsub hd.2.1]

/-- Exact multiplicity of the canonical task among the bindings of a
user. -/
theorem count_tasksOfUser (s : DBState) (ct cd nd : String) (b : Binding)
    (w : String) (hWF : WF s) (hb : b ∈ s.user_locations) :
    (tasksOfUser s ct cd nd b.user_id).count (mkTask b w) =
      if dueCond s ct cd nd b w then 1 else 0 := by
  unfold tasksOfUser
  have hlnodup : s.user_locations.Nodup := List.Nodup.of_map _ hWF.ids_nodup
  have hmemf : b ∈ s.user_locations.filter fun ul => ul.user_id = b.user_id :=
    List.mem_filter.mpr ⟨hb, by simp⟩
  rw [count_flatMap_single _ _ hmemf (hlnodup.filter _) ?hother]
  case hother =>
    intro ul hulmem hne htask
    obtain ⟨-, hloc⟩ := tasksOfBinding_shape htask
    have hulin : ul ∈ s.user_locations := (List.mem_filter.mp hulmem).1
    have huser : ul.user_id = b.user_id := by
      have := (List.mem_filter.mp hulmem).2
      simpa using this
    apply hne
    exact List.inj_on_of_nodup_map hWF.keys_nodup hulin hb
      (by rw [huser]; exact congrArg (fun x => (b.user_id, x)) hloc.symm)
  exact count_tasksOfBinding s ct cd nd b w hWF.subs_nodup hWF.events_nodup

/-- Completeness of the matcher: every returned task arises from a binding
and waste type satisfying the due condition. -/
theorem get_users_to_notify_complete {s : DBState} {ct cd nd : String}
    {task : NotificationTask} (h : task ∈ get_users_to_notify s ct cd nd) :
    ∃ b ∈ s.user_locations, ∃ w, dueCond s ct cd nd b w ∧ task = mkTask b w := by
  unfold get_users_to_notify at h
  obtain ⟨u, _, h⟩ := List.mem_flatMap.mp h
  unfold tasksOfUser at h
  obtain ⟨ul, hul, h⟩ := List.mem_flatMap.mp h
  have hulmem : ul ∈ s.user_locations := (List.mem_filter.mp hul).1
  have huser : ul.user_id = u := by
    have := (List.mem_filter.mp hul).2
    simpa using this
  unfold tasksOfBinding at h
  obtain ⟨sub, hsubm, h⟩ := List.mem_flatMap.mp h
  have hsubmem : sub ∈ s.subscriptions := (List.mem_filter.mp hsubm).1
  have hulid : sub.user_location_id = ul.id := by
    have := (List.mem_filter.mp hsubm).2
    simpa using this
  unfold tasksOfSub at h
  obtain ⟨e, hem, hif⟩ := List.mem_filterMap.mp h
  have hemem : e ∈ s.pickup_events := (List.mem_filter.mp hem).1
  have heq : e.location_id = ul.location_id ∧ sub.waste_type = e.waste_type := by
    have := (List.mem_filter.mp hem).2
    simpa using this
  split at hif
  · rename_i hcond
    have htask : task = ⟨u, sub.waste_type, ul.alias_col, ul.location_id,
        ul.notify_offset⟩ := (Option.some.inj hif).symm
    refine ⟨ul, hulmem, sub.waste_type, ⟨hcond.1, ?_, ?_⟩, ?_⟩
    · have hrow : (⟨ul.id, sub.waste_type⟩ : SubRow) = sub := by
        cases sub
        simp_all
      rw [hrow]
      exact hsubmem
    · rcases hcond.2 with ⟨hoff, hdate⟩ | ⟨hoff, hdate⟩
      · left
        refine ⟨hoff, ?_⟩
        have hrow : (⟨ul.location_id, cd, sub.waste_type⟩ : EventRow) = e := by
          cases e
          simp_all
        rw [hrow]
        exact hemem
      · right
        refine ⟨hoff, ?_⟩
        have hrow : (⟨ul.location_id, nd, sub.waste_type⟩ : EventRow) = e := by
          cases e
          simp_all
        rw [hrow]
        exact hemem
    · rw [htask, mkTask, huser]
  · cases hif

/-- C1 — Matcher exactness: on a schema-well-formed store, the matcher
returns, for every binding `b` and waste type `w`, exactly one task when
`b` is scheduled at the queried slot, `w` is subscribed on `b`, and a
pickup event exists at `b`'s location for the date resolved from `b`'s
offset (`current_date` for offset 0, `next_date` for offset 1) — and zero
tasks otherwise, so no binding contributes through both offsets; every
returned task arises this way, and the dispatcher's display label derived
from a task is the binding's alias, falling back to its location code. -/
theorem C1_matcher_exactness (s : DBState) (hWF : WF s)
    (ct cd nd : String) :
    (∀ b ∈ s.user_locations, ∀ w : String,
      (get_users_to_notify s ct cd nd).count (mkTask b w) =
        if dueCond s ct cd nd b w then 1 else 0) ∧
    (∀ task ∈ get_users_to_notify s ct cd nd,
      ∃ b ∈ s.user_locations, ∃ w, dueCond s ct cd nd b w ∧ task = mkTask b w) ∧
    (∀ (b : Binding) (w : String),
      (mkTask b w).displayLabel = b.alias_col.getD b.location_id) := by
  refine ⟨?_, fun task h => get_users_to_notify_complete h, fun b w => rfl⟩
  intro b hb w
  unfold get_users_to_notify
  have hmem : b.user_id ∈ s.users := hWF.binding_user b hb
  rw [count_flatMap_single _ _ hmem hWF.users_nodup ?hother]
  case hother =>
    intro u _ hne htask
    exact hne (tasksOfUser_shape htask).symm
  exact count_tasksOfUser s ct cd nd b w hWF hb

/-! ### Schema invariant preservation -/

theorem wf_create_user {s : DBState} (h : WF s) (uid : Int) :
    WF (create_user s uid) := by
  unfold create_user
  split
  · exact h
  · rename_i hmem
    refine ⟨?_, h.ids_nodup, h.keys_nodup, h.ids_lt, ?_, h.sub_binding,
      h.subs_nodup, h.events_nodup⟩
    · rw [List.nodup_append]
      refine ⟨h.users_nodup, List.nodup_singleton uid, ?_⟩
      intro a ha hb
      rw [List.mem_singleton] at hb
      subst hb
      exact hmem ha
    · intro b hb
      exact List.mem_append_left _ (h.binding_user b hb)

theorem mem_create_user (s : DBState) (uid : Int) :
    uid ∈ (create_user s uid).users := by
  unfold create_user
  split
  · assumption
  · exact List.mem_append_right _ (List.mem_singleton.mpr rfl)

theorem wf_delete_user {s : DBState} (h : WF s) (uid : Int) :
    WF (delete_user s uid) := by
  unfold delete_user
  refine ⟨h.users_nodup.filter _, ?_, ?_, ?_, ?_, ?_, h.subs_nodup.filter _,
    h.events_nodup⟩
  · exact List.Nodup.sublist ((List.filter_sublist _).map Binding.id) h.ids_nodup
  · exact List.Nodup.sublist ((List.filter_sublist _).map _) h.keys_nodup
  · intro b hb
    exact h.ids_lt b (List.mem_of_mem_filter hb)
  · intro b hb
    obtain ⟨hbm, hbne⟩ := List.mem_filter.mp hb
    exact List.mem_filter.mpr ⟨h.binding_user b hbm, hbne⟩
  · intro sub hsub
    obtain ⟨hsm, hkeep⟩ := List.mem_filter.mp hsub
    obtain ⟨b, hbm, hbid⟩ := h.sub_binding sub hsm
    rw [decide_eq_true_eq] at hkeep
    have hbu : b.user_id ≠ uid := fun he => hkeep ⟨b, hbm, hbid, he⟩
    exact ⟨b, List.mem_filter.mpr ⟨hbm, by simpa using hbu⟩, hbid⟩

/-- A field-preserving rewrite of the bindings table keeps the schema
invariants. -/
theorem wf_map_bindings {s : DBState} (h : WF s) (f : Binding → Binding)
    (hid : ∀ x, (f x).id = x.id) (hu : ∀ x, (f x).user_id = x.user_id)
    (hl : ∀ x, (f x).location_id = x.location_id) :
    WF { s with user_locations := s.user_locations.map f } := by
  refine ⟨h.users_nodup, ?_, ?_, ?_, ?_, ?_, h.subs_nodup, h.events_nodup⟩
  · rw [List.map_map]
    have he : Binding.id ∘ f = Binding.id := funext hid
    rw [he]
    exact h.ids_nodup
  · rw [List.map_map]
    have he : ((fun b => (b.user_id, b.location_id)) ∘ f) =
        fun b => (b.user_id, b.location_id) :=
      funext fun x => by simp only [Function.comp_apply, hu x, hl x]
    rw [he]
    exact h.keys_nodup
  · intro b hb
    obtain ⟨x, hx, rfl⟩ := List.mem_map.mp hb
    rw [hid]
    exact h.ids_lt x hx
  · intro b hb
    obtain ⟨x, hx, rfl⟩ := List.mem_map.mp hb
    rw [hu]
    exact h.binding_user x hx
  · intro sub hsub
    obtain ⟨x, hx, hxid⟩ := h.sub_binding sub hsub
    exact ⟨f x, List.mem_map_of_mem f hx, by rw [hid]; exact hxid⟩

theorem wf_add_user_location {s : DBState} (h : WF s) (uid : Int)
    (loc : String) (al : Option String) :
    WF (add_user_location s uid loc al).2 := by
  unfold add_user_location
  dsimp only
  have h1 : WF (create_user s uid) := wf_create_user h uid
  have huid : uid ∈ (create_user s uid).users := mem_create_user s uid
  cases hfind : (create_user s uid).user_locations.find?
      fun b => decide (bindingKey uid loc b) with
  | some b =>
    dsimp only
    exact wf_map_bindings h1
      (fun b' => if bindingKey uid loc b' then { b' with alias_col := al } else b')
      (fun x => by by_cases hk : bindingKey uid loc x <;> simp [hk])
      (fun x => by by_cases hk : bindingKey uid loc x <;> simp [hk])
      (fun x => by by_cases hk : bindingKey uid loc x <;> simp [hk])
  | none =>
    dsimp only
    have hnew : ∀ x ∈ (create_user s uid).user_locations, ¬ bindingKey uid loc x := by
      intro x hx
      have := List.find?_eq_none.mp hfind x hx
      simpa using this
    refine ⟨h1.users_nodup, ?_, ?_, ?_, ?_, ?_, h1.subs_nodup, h1.events_nodup⟩
    · rw [List.map_append, List.nodup_append]
      refine ⟨h1.ids_nodup, by simp, ?_⟩
      intro a ha hb
      simp only [List.map_cons, List.map_nil, List.mem_singleton] at hb
      subst hb
      obtain ⟨x, hx, hxid⟩ := List.mem_map.mp ha
      have := h1.ids_lt x hx
      omega
    · rw [List.map_append, List.nodup_append]
      refine ⟨h1.keys_nodup, by simp, ?_⟩
      intro a ha hb
      simp only [List.map_cons, List.map_nil, List.mem_singleton] at hb
      subst hb
      obtain ⟨x, hx, hxk⟩ := List.mem_map.mp ha
      obtain ⟨h1x, h2x⟩ := Prod.mk.injEq _ _ _ _ ▸ hxk
      exact hnew x hx ⟨h1x, h2x⟩
    · intro b hb
      show b.id < (create_user s uid).next_binding_id + 1
      rcases List.mem_append.mp hb with hb | hb
      · have := h1.ids_lt b hb
        omega
      · rw [List.mem_singleton] at hb
        subst hb
        show (create_user s uid).next_binding_id <
          (create_user s uid).next_binding_id + 1
        omega
    · intro b hb
      rcases List.mem_append.mp hb with hb | hb
      · exact h1.binding_user b hb
      · rw [List.mem_singleton] at hb
        subst hb
        exact huid
    · intro sub hsub
      obtain ⟨b, hbm, hbid⟩ := h1.sub_binding sub hsub
      exact ⟨b, List.mem_append_left _ hbm, hbid⟩

theorem wf_delete_user_location {s : DBState} (h : WF s) (uid : Int)
    (key : String) : WF (delete_user_location s uid key).2 := by
  unfold delete_user_location
  refine ⟨h.users_nodup, ?_, ?_, ?_, ?_, ?_, h.subs_nodup.filter _,
    h.events_nodup⟩
  · exact List.Nodup.sublist ((List.filter_sublist _).map Binding.id) h.ids_nodup
  · exact List.Nodup.sublist ((List.filter_sublist _).map _) h.keys_nodup
  · intro b hb
    exact h.ids_lt b (List.mem_of_mem_filter hb)
  · intro b hb
    exact h.binding_user b (List.mem_of_mem_filter hb)
  · intro sub hsub
    obtain ⟨hsm, hkeep⟩ := List.mem_filter.mp hsub
    obtain ⟨b, hbm, hbid⟩ := h.sub_binding sub hsm
    rw [decide_eq_true_eq] at hkeep
    have hbk : ¬ keyMatches uid key b := fun hk => hkeep ⟨b, hbm, hk, hbid⟩
    exact ⟨b, List.mem_filter.mpr ⟨hbm, by simpa using hbk⟩, hbid⟩

theorem wf_update_notify_time {s : DBState} (h : WF s) (uid : Int)
    (key time : String) : WF (update_notify_time s uid key time).2 := by
  unfold update_notify_time
  exact wf_map_bindings h
    (fun b => if keyMatches uid key b then { b with notify_time := time } else b)
    (fun x => by by_cases hk : keyMatches uid key x <;> simp [hk])
    (fun x => by by_cases hk : keyMatches uid key x <;> simp [hk])
    (fun x => by by_cases hk : keyMatches uid key x <;> simp [hk])

theorem wf_update_notify_offset {s : DBState} (h : WF s) (uid : Int)
    (key : String) (off : Int) : WF (update_notify_offset s uid key off).2 := by
  unfold update_notify_offset
  exact wf_map_bindings h
    (fun b => if keyMatches uid key b then { b with notify_offset := off } else b)
    (fun x => by by_cases hk : keyMatches uid key x <;> simp [hk])
    (fun x => by by_cases hk : keyMatches uid key x <;> simp [hk])
    (fun x => by by_cases hk : keyMatches uid key x <;> simp [hk])

theorem wf_add_subscription {s s' : DBState} (h : WF s) {ulid : Int}
    {wt : String} (heq : add_subscription s ulid wt = some s') : WF s' := by
  unfold add_subscription at heq
  split at heq
  · rename_i hex
    cases heq
    by_cases hmem : (⟨ulid, wt⟩ : SubRow) ∈ s.subscriptions
    · simp only [if_pos hmem]
      exact ⟨h.users_nodup, h.ids_nodup, h.keys_nodup, h.ids_lt,
        h.binding_user, h.sub_binding, h.subs_nodup, h.events_nodup⟩
    · simp only [if_neg hmem]
      refine ⟨h.users_nodup, h.ids_nodup, h.keys_nodup, h.ids_lt,
        h.binding_user, ?_, ?_, h.events_nodup⟩
      · intro sub hsub
        rcases List.mem_append.mp hsub with hsub | hsub
        · exact h.sub_binding sub hsub
        · rw [List.mem_singleton] at hsub
          subst hsub
          exact hex
      · rw [List.nodup_append]
        refine ⟨h.subs_nodup, by simp, ?_⟩
        intro a ha hb
        rw [List.mem_singleton] at hb
        subst hb
        exact hmem ha
  · cases heq

theorem wf_remove_subscription {s : DBState} (h : WF s) (ulid : Int)
    (wt : String) : WF (remove_subscription s ulid wt) := by
  unfold remove_subscription
  refine ⟨h.users_nodup, h.ids_nodup, h.keys_nodup, h.ids_lt,
    h.binding_user, ?_, h.subs_nodup.filter _, h.events_nodup⟩
  intro sub hsub
  exact h.sub_binding sub (List.mem_of_mem_filter hsub)

theorem wf_upsert_events {s s' : DBState} (h : WF s) {loc today : String}
    {E : List PickupEvent} (heq : upsert_events s loc E today = some s') :
    WF s' := by
  obtain ⟨hnd, hdisj, rfl⟩ := upsert_events_eq heq
  refine ⟨h.users_nodup, h.ids_nodup, h.keys_nodup, h.ids_lt,
    h.binding_user, h.sub_binding, h.subs_nodup, ?_⟩
  rw [List.nodup_append]
  exact ⟨h.events_nodup.filter _, hnd, fun a ha hb => hdisj a hb ha⟩

/-- Every state reachable through the store operations satisfies the
schema constraints. -/
theorem reachable_WF {s : DBState} (h : Reachable s) : WF s := by
  induction h with
  | init =>
    refine ⟨?_, ?_, ?_, ?_, ?_, ?_, ?_, ?_⟩ <;> simp [initState]
  | create_user uid _ ih => exact wf_create_user ih uid
  | delete_user uid _ ih => exact wf_delete_user ih uid
  | add_user_location uid loc al _ ih => exact wf_add_user_location ih uid loc al
  | delete_user_location uid key _ ih => exact wf_delete_user_location ih uid key
  | update_notify_time uid key time _ ih => exact wf_update_notify_time ih uid key time
  | update_notify_offset uid key off _ ih => exact wf_update_notify_offset ih uid key off
  | add_subscription ulid wt _ heq ih => exact wf_add_subscription ih heq
  | remove_subscription ulid wt _ ih => exact wf_remove_subscription ih ulid wt
  | upsert_events loc E today _ heq ih => exact wf_upsert_events ih heq

/-- C8 — Cascade invariant: in every reachable store state every category
subscription has an existing parent binding and every binding an existing
subscriber; `delete_user` removes, in the same operation, all of the
subscriber's bindings and every subscription attached to them, so listing
the subscriber's locations afterwards is empty and querying subscriptions
of any deleted binding is empty. -/
theorem C8_cascade (s : DBState) (hR : Reachable s) :
    (∀ sub ∈ s.subscriptions, ∃ b ∈ s.user_locations,
      b.id = sub.user_location_id) ∧
    (∀ b ∈ s.user_locations, b.user_id ∈ s.users) ∧
    (∀ chat_id : Int,
      get_user_locations (delete_user s chat_id) chat_id = [] ∧
      (delete_user s chat_id).user_locations =
        s.user_locations.filter (fun b => b.user_id ≠ chat_id) ∧
      ∀ b ∈ s.user_locations, b.user_id = chat_id →
        get_subscriptions (delete_user s chat_id) b.id = []) := by
  have hWF := reachable_WF hR
  refine ⟨hWF.sub_binding, hWF.binding_user, ?_⟩
  intro uid
  refine ⟨?_, rfl, ?_⟩
  · unfold get_user_locations delete_user
    rw [List.filter_eq_nil_iff]
    intro b hb
    have := (List.mem_filter.mp hb).2
    simpa using this
  · intro b hb hbu
    unfold get_subscriptions delete_user
    have hnil : ((s.subscriptions.filter fun sub =>
        ¬ subOfUser s.user_locations uid sub).filter
          fun sub => sub.user_location_id = b.id) = [] := by
      rw [List.filter_eq_nil_iff]
      intro sub hsub
      have hkeep := (List.mem_filter.mp hsub).2
      rw [decide_eq_true_eq] at hkeep
      intro hid
      rw [decide_eq_true_eq] at hid
      exact hkeep ⟨b, hb, hid.symm ▸ rfl, hbu⟩
    rw [hnil]
    rfl

/-! ### Witnesses: the theorems above applied at concrete inputs -/

/-- C1 witness: a concrete well-formed store with one due binding. -/
theorem C1_matcher_exactness_witness :
    (get_users_to_notify
        ⟨[12345], [⟨1, 12345, "LOC1", "06:00", 0, some "Home"⟩],
         [⟨1, "Bio"⟩], [⟨"LOC1", "2024-01-01", "Bio"⟩], 2⟩
        "06:00" "2024-01-01" "2024-01-02").count
      (mkTask ⟨1, 12345, "LOC1", "06:00", 0, some "Home"⟩ "Bio") =
      if dueCond
          ⟨[12345], [⟨1, 12345, "LOC1", "06:00", 0, some "Home"⟩],
           [⟨1, "Bio"⟩], [⟨"LOC1", "2024-01-01", "Bio"⟩], 2⟩
          "06:00" "2024-01-01" "2024-01-02"
          ⟨1, 12345, "LOC1", "06:00", 0, some "Home"⟩ "Bio" then 1 else 0 :=
  (C1_matcher_exactness
    ⟨[12345], [⟨1, 12345, "LOC1", "06:00", 0, some "Home"⟩],
     [⟨1, "Bio"⟩], [⟨"LOC1", "2024-01-01", "Bio"⟩], 2⟩
    ⟨by decide, by decide, by decide, by decide, by decide, by decide,
     by decide, by decide⟩ "06:00" "2024-01-01" "2024-01-02").1
    ⟨1, 12345, "LOC1", "06:00", 0, some "Home"⟩ (by decide) "Bio"

/-- C2 witness: running the same sync twice from the empty store. -/
theorem C2_idempotent_sync_witness :
    syncN "LOC1" [⟨⟨2024, 1, 2⟩, [.Bio]⟩] "2024-01-01" 2 initState =
      some ⟨[], [], [], [⟨"LOC1", "2024-01-02", "Bio"⟩], 1⟩ :=
  (C2_idempotent_sync initState
    ⟨[], [], [], [⟨"LOC1", "2024-01-02", "Bio"⟩], 1⟩
    "LOC1" "2024-01-01" [⟨⟨2024, 1, 2⟩, [.Bio]⟩] (by decide)).1 2 (by decide)

/-- C3 witness: a sync over a store holding a past-dated event, fed one
stale and one future event. -/
theorem C3_history_immutability_witness :
    (⟨[], [], [],
      [⟨"LOC1", "2020-01-01", "Bio"⟩, ⟨"LOC1", "2024-01-02", "Bio"⟩], 1⟩ :
        DBState).pickup_events.filter
      (fun r => strLtB r.date "2024-01-01") =
    (⟨[], [], [], [⟨"LOC1", "2020-01-01", "Bio"⟩], 1⟩ :
        DBState).pickup_events.filter
      (fun r => strLtB r.date "2024-01-01") :=
  (C3_history_immutability
    ⟨[], [], [], [⟨"LOC1", "2020-01-01", "Bio"⟩], 1⟩
    ⟨[], [], [],
      [⟨"LOC1", "2020-01-01", "Bio"⟩, ⟨"LOC1", "2024-01-02", "Bio"⟩], 1⟩
    "LOC1" "2024-01-01"
    [⟨⟨2020, 5, 5⟩, [.Rest]⟩, ⟨⟨2024, 1, 2⟩, [.Bio]⟩] (by decide)).1

/-- C4 witness: a failure injected at the insert batch rolls the committed
table back to its pre-call contents. -/
theorem C4_sync_atomicity_witness :
    runTx [⟨"LOC1", "2020-01-01", "Bio"⟩] [⟨"LOC1", "2020-01-01", "Bio"⟩]
      (upsertStmts "LOC1" "2024-01-01" [⟨⟨2024, 1, 2⟩, [.Bio]⟩]) (some 1) 0 =
      [⟨"LOC1", "2020-01-01", "Bio"⟩] :=
  (C4_sync_atomicity "LOC1" "2024-01-01" [⟨⟨2024, 1, 2⟩, [.Bio]⟩]
    [⟨"LOC1", "2020-01-01", "Bio"⟩]).1 1 (by decide)

/-- C6 witness: the amended per-entry parse shape at a concrete calendar. -/
theorem C6_one_event_per_entry_witness :
    List.Forall₂ entryRel
      [⟨[⟨"DTSTART", some "20231027"⟩, ⟨"SUMMARY", some "Bio, Rest"⟩]⟩]
      [⟨⟨2023, 10, 27⟩, [.Bio, .Rest]⟩] ∧
    ([(⟨⟨2023, 10, 27⟩, [.Bio, .Rest]⟩ : PickupEvent)]).length =
      ([⟨[⟨"DTSTART", some "20231027"⟩, ⟨"SUMMARY", some "Bio, Rest"⟩]⟩] :
        List IcalEvent).length :=
  C6_one_event_per_entry
    [⟨[⟨[⟨"DTSTART", some "20231027"⟩, ⟨"SUMMARY", some "Bio, Rest"⟩]⟩]⟩]
    [⟨⟨2023, 10, 27⟩, [.Bio, .Rest]⟩] rfl

/-- C7 witness: each failure case and the surfacing property at concrete
entries. -/
theorem C7_parse_failure_taxonomy_witness :
    extract_event_data ⟨[⟨"SUMMARY", some "Bio"⟩]⟩ = .error .MissingDate ∧
    extract_event_data ⟨[⟨"DTSTART", some "banana"⟩]⟩ =
      .error (.InvalidDate "banana") ∧
    extract_event_data ⟨[⟨"DTSTART", some "20231027"⟩]⟩ =
      .error .MissingSummary ∧
    (∃ d s, extract_event_data
        ⟨[⟨"DTSTART", some "20231027"⟩, ⟨"SUMMARY", some "Bio"⟩]⟩ =
      Except.ok (d, s)) := by
  refine ⟨C7_parse_failure_taxonomy.1 ⟨[⟨"SUMMARY", some "Bio"⟩]⟩ (by decide),
    C7_parse_failure_taxonomy.2.1 [] [] "banana" (by decide) (by decide),
    C7_parse_failure_taxonomy.2.2.1 ⟨[⟨"DTSTART", some "20231027"⟩]⟩
      (by decide) (by decide) ?_,
    C7_parse_failure_taxonomy.2.2.2
      [⟨[⟨[⟨"DTSTART", some "20231027"⟩, ⟨"SUMMARY", some "Bio"⟩]⟩]⟩]
      [⟨⟨2023, 10, 27⟩, [.Bio]⟩] rfl
      ⟨[⟨[⟨"DTSTART", some "20231027"⟩, ⟨"SUMMARY", some "Bio"⟩]⟩]⟩
      (by decide)
      ⟨[⟨"DTSTART", some "20231027"⟩, ⟨"SUMMARY", some "Bio"⟩]⟩ (by decide)⟩
  intro p hp v hn hv
  rw [List.mem_singleton] at hp
  subst hp
  injection hv with hv
  subst hv
  decide

/-- C8 witness: a reachable store with one subscriber, one binding and one
subscription; deleting the subscriber leaves it without locations. -/
theorem C8_cascade_witness :
    get_user_locations
      (delete_user ⟨[12345], [⟨1, 12345, "LOC1", "18:00", 1, some "Home"⟩],
        [⟨1, "Bio"⟩], [], 2⟩ 12345) 12345 = [] := by
  have h1 : Reachable (⟨[12345], [⟨1, 12345, "LOC1", "18:00", 1, some "Home"⟩],
      [], [], 2⟩ : DBState) :=
    Reachable.add_user_location 12345 "LOC1" (some "Home") Reachable.init
  have h2 : Reachable (⟨[12345], [⟨1, 12345, "LOC1", "18:00", 1, some "Home"⟩],
      [⟨1, "Bio"⟩], [], 2⟩ : DBState) :=
    Reachable.add_subscription 1 "Bio" h1 (by decide)
  exact ((C8_cascade _ h2).2.2 12345).1

/-- C9 witness: upserting a new alias onto an existing binding returns the
existing row id. -/
theorem C9_upsert_frame_witness :
    (add_user_location ⟨[12345], [⟨1, 12345, "LOC1", "18:00", 1, some "Home"⟩],
      [], [], 2⟩ 12345 "LOC1" (some "Office")).1 = 1 :=
  (C9_upsert_frame
    ⟨[12345], [⟨1, 12345, "LOC1", "18:00", 1, some "Home"⟩], [], [], 2⟩
    ⟨by decide, by decide, by decide, by decide, by decide, by decide,
     by decide, by decide⟩
    ⟨1, 12345, "LOC1", "18:00", 1, some "Home"⟩ (by decide)
    12345 "LOC1" rfl rfl (some "Office")).1

end DumpDate
